import Mathlib

/-!
# Verification of the web-FPGA simulation-canvas engine

Shallow embedding of the discrete-event logic-signal simulation engine of the
simulation canvas component (layout planner, wire path resolver, flip-flop
state machine, signal propagation scheduler, simulation driver), together with
theorems checking the natural-language specification against it.

JavaScript numbers are modelled as rationals (`ℚ`), JS arrays as `List`,
JS string operations (`includes`, `endsWith`) as the corresponding
decidable list/string operations.
-/

/-- A 2-D point, the `Point` helper type of the canvas component. -/
structure Point where
  x : ℚ
  y : ℚ
deriving DecidableEq, Repr

/-- A named port of an element; ports carry a `wireName` joining them to a
connection. -/
structure Port where
  wireName : String
deriving DecidableEq, Repr

/-- A netlist element (`IElement`).  `x`/`y` model the JS position fields;
a JS `undefined` inputs/outputs array behaves exactly like the empty array in
every operation modelled here, so both are embedded as `List Port`. -/
structure Element where
  id : Int
  name : String
  type : String
  x : ℚ
  y : ℚ
  inputs : List Port
  outputs : List Port
deriving DecidableEq, Repr

/-- A connection (`IConnection`): the wire identity is its name. -/
structure Connection where
  name : String
deriving DecidableEq, Repr

/-- An in-flight signal on a wire (the `Signal` type of the component). -/
structure Signal where
  connectionName : String
  position : ℚ
  points : List Point
  totalLength : ℚ
  createdAt : ℚ
  sourceName : String
  destName : String
deriving DecidableEq, Repr

/-- Per flip-flop internal state (the `FlipFlopState` type). -/
structure FlipFlopState where
  id : Int
  name : String
  hasD : Bool
  hasEn : Bool
  outputValue : Bool
  lastClockTime : ℚ
  type : String
deriving DecidableEq, Repr

/-- Per flip-flop input tracker (one entry of `activeFlipFlopInputs`). -/
structure FFInput where
  dIn : Bool
  enIn : Bool
  lastEnUpdateTime : ℚ
deriving DecidableEq, Repr

/-- Does the character list start with the pattern? -/
def listStartsWith : List Char → List Char → Bool
  | _, [] => true
  | [], _ :: _ => false
  | c :: cs, p :: ps => c = p && listStartsWith cs ps

/-- Does the pattern occur contiguously inside the character list? -/
def listContainsSeq (pat : List Char) : List Char → Bool
  | [] => pat.isEmpty
  | c :: cs => listStartsWith (c :: cs) pat || listContainsSeq pat cs

/-- JS `String.prototype.includes`: substring containment. -/
def strIncludes (s pat : String) : Bool :=
  listContainsSeq pat.toList s.toList

/-- JS `String.prototype.endsWith`: suffix test. -/
def strEndsWith (s pat : String) : Bool :=
  listStartsWith s.toList.reverse pat.toList.reverse

/-- Function `getPortPosition`: the specific port position for an element based on its
type and the port name.  Mirrors the source's branch structure: default is
left-center for inputs and right-center for outputs; flip-flops special-case
ports identified by name substring or `_0`/`_1`/`_2` suffix. -/
def getPortPosition (element : Element) (portType : String) (portName : String) : Point :=
  let size : ℚ := 50
  let x := element.x
  let y := element.y
  -- Default positions (centered on sides)
  let portX : ℚ := if portType = "input" then x else x + size
  let portY : ℚ := y + size / 2
  if element.type = "DFF" ∨ element.type = "DFF_NE" then
    if portType = "input" then
      if strIncludes portName "D" || strEndsWith portName "_0" then
        -- D input at 25% from the top of the left edge
        ⟨x, y + size * (1/4)⟩
      else if strIncludes portName "clk" || strEndsWith portName "_1" then
        -- Clock input at the bottom-center
        ⟨x + size / 2, y + size⟩
      else if strIncludes portName "en" || strEndsWith portName "_2" then
        -- Enable input at 75% from the top of the left edge
        ⟨x, y + size * (3/4)⟩
      else
        ⟨portX, portY⟩
    else
      -- Output Q on the right side, centered
      ⟨x + size, y + size / 2⟩
  else
    ⟨portX, portY⟩

/-- Function `calculateOrthogonalPath`: the orthogonal wire route between the two port
positions of a connection: start, two corner points on the vertical midpoint
column, end. -/
def calculateOrthogonalPath (sourceElement destElement : Element)
    (connection : Connection) : List Point :=
  let sourcePort := sourceElement.outputs.find? (fun output => output.wireName = connection.name)
  let destPort := destElement.inputs.find? (fun input => input.wireName = connection.name)
  -- `sourcePort?.wireName || connection.name` (a found port's wireName equals
  -- the connection name, so the fallback also applies to an empty name)
  let sourceArg := match sourcePort with
    | some p => if p.wireName = "" then connection.name else p.wireName
    | none => connection.name
  let destArg := match destPort with
    | some p => if p.wireName = "" then connection.name else p.wireName
    | none => connection.name
  let sourcePos := getPortPosition sourceElement "output" sourceArg
  let destPos := getPortPosition destElement "input" destArg
  let startX := sourcePos.x
  let startY := sourcePos.y
  let endX := destPos.x
  let endY := destPos.y
  let midX := startX + (endX - startX) / 2
  [⟨startX, startY⟩, ⟨midX, startY⟩, ⟨midX, endY⟩, ⟨endX, endY⟩]

/-- Length of one wire segment.  The source computes `Math.sqrt (dx²+dy²)`;
every segment produced by `calculateOrthogonalPath` is axis-aligned (either
`dx = 0` or `dy = 0`), where the Euclidean length equals `|dx| + |dy|`, which
is exact in `ℚ`. -/
def segmentLength (p q : Point) : ℚ :=
  |q.x - p.x| + |q.y - p.y|

/-- Total length of a path: the sum of its segment lengths. -/
def pathTotalLength : List Point → ℚ
  | p :: q :: rest => segmentLength p q + pathTotalLength (q :: rest)
  | _ => 0

/-- Expression `element.name || element-id`: the JS falsy fallback used when building a
signal's diagnostic source/destination names. -/
def nameOrFallback (el : Element) : String :=
  if el.name = "" then "element-" ++ toString el.id else el.name

/-! ## Layout Planner (`arrangeElements`) -/

/-- Step 1 of `arrangeElements`: the dependency graph.  Keys are initialised
to `[]` for every element; for each connection whose source and destination
elements both resolve, the destination id is appended to the source's list. -/
def depGraph (els : List Element) (conns : List Connection) : Int → List Int :=
  conns.foldl (fun g conn =>
    match els.find? (fun el => el.outputs.any (fun output => output.wireName = conn.name)),
          els.find? (fun el => el.inputs.any (fun input => input.wireName = conn.name)) with
    | some s, some d => fun i => if i = s.id then g i ++ [d.id] else g i
    | _, _ => g) (fun _ => [])

/-- Seed layer of the layout: ids of elements of type `module_input` or `clk`,
or with no input ports (a JS `undefined` inputs array behaves like `[]`). -/
def sourceLayerIds (els : List Element) : List Int :=
  (els.filter (fun el =>
    el.type = "module_input" || el.type = "clk" || el.inputs.isEmpty)).map (·.id)

/-- One candidate destination of the breadth-first expansion: skipped if
already visited or unresolvable; otherwise added to the next layer (and marked
visited immediately) when every element driving one of its input ports is
already visited. -/
def processDest (els : List Element) (vs acc : List Int) (destId : Int) :
    List Int × List Int :=
  if vs.contains destId then (vs, acc)
  else
    match els.find? (fun e => e.id = destId) with
    | none => (vs, acc)
    | some el =>
      let inputElements := el.inputs.filterMap (fun input =>
        (els.find? (fun e =>
          e.outputs.any (fun output => output.wireName = input.wireName))).map (·.id))
      if inputElements.all (fun i => vs.contains i) then (vs ++ [destId], acc ++ [destId])
      else (vs, acc)

/-- Fold `processDest` over the dependency list of one source element. -/
def processDests (els : List Element) : List Int → List Int → List Int →
    List Int × List Int
  | vs, acc, [] => (vs, acc)
  | vs, acc, d :: ds =>
    let p := processDest els vs acc d
    processDests els p.1 p.2 ds

/-- One iteration of the while loop: compute the next layer from the current
layer, threading the visited set (the source mutates `visited` as it pushes).
Returns the updated visited set and the next layer. -/
def nextLayerCalc (els : List Element) (g : Int → List Int) :
    List Int → List Int → List Int → List Int × List Int
  | vs, acc, [] => (vs, acc)
  | vs, acc, s :: ss =>
    let p := processDests els vs acc (g s)
    nextLayerCalc els g p.1 p.2 ss

/-- The breadth-first while loop of `arrangeElements`, with explicit fuel.
Each iteration whose next layer is nonempty strictly grows the visited set
with element ids, so fuel `els.length + 1` is never exhausted before the loop
condition `current = []` stops it (proved as `buildLayersLoop_fuel_stable`).
Returns the pushed layers and the final visited set. -/
def buildLayersLoop (els : List Element) (g : Int → List Int) :
    Nat → List Int → List Int → List (List Int) × List Int
  | 0, vs, _ => ([], vs)
  | fuel + 1, vs, current =>
    if current.isEmpty then ([], vs)
    else
      let p := nextLayerCalc els g vs [] current
      let r := buildLayersLoop els g fuel p.1 p.2
      (if p.2.isEmpty then r.1 else p.2 :: r.1, r.2)

/-- Steps 1–2 of `arrangeElements`: the layer decomposition, with the seed
layer pushed first (even when empty, as in the source) and a final catch-all
layer of all ids left unvisited when the expansion stabilises. -/
def buildLayers (els : List Element) (conns : List Connection) : List (List Int) :=
  let g := depGraph els conns
  let sources := sourceLayerIds els
  let r := buildLayersLoop els g (els.length + 1) sources sources
  let base := sources :: r.1
  let remaining := (els.map (·.id)).filter (fun i => !r.2.contains i)
  if remaining.isEmpty then base else base ++ [remaining]

/-- Step `arrangedElements.find(el => el.id === id)` followed by in-place mutation
of its `x`/`y`: update the first element with the given id. -/
def updateElementPos (targetId : Int) (lx ly : ℚ) : List Element → List Element
  | [] => []
  | el :: rest =>
    if el.id = targetId then { el with x := lx, y := ly } :: rest
    else el :: updateElementPos targetId lx ly rest

/-- Step 3, inner `forEach`: place the ids of one layer at vertical offsets
`100 + elementIndex * 100` (`VERTICAL_SPACING = 100`). -/
def assignLayer (lx : ℚ) : Nat → List Int → List Element → List Element
  | _, [], heap => heap
  | j, i :: is, heap =>
    assignLayer lx (j + 1) is (updateElementPos i lx (100 + (j : ℚ) * 100) heap)

/-- Step 3, outer `forEach`: place each layer at horizontal offset
`100 + layerIndex * 200` (`HORIZONTAL_SPACING = 200`). -/
def assignAll : Nat → List (List Int) → List Element → List Element
  | _, [], heap => heap
  | li, layer :: rest, heap =>
    assignAll (li + 1) rest (assignLayer (100 + (li : ℚ) * 200) 0 layer heap)

/-- Function `arrangeElements`: the automatic layout.  The result models the final
state of the element records after the call. -/
def arrangeElements (elements : List Element) (connections : List Connection) :
    List Element :=
  if elements.isEmpty then elements
  else assignAll 0 (buildLayers elements connections) elements

/-- The caller's element objects after `arrangeElements` returns.  The source
clones only the array (`const arrangedElements = [...elements]`): the clone
holds the same element objects as the caller's array, and step 3 assigns
`elementToUpdate.x = layerX` through those shared references, so the caller
observes exactly the records of the returned collection. -/
def arrangeElementsCallerView (elements : List Element)
    (connections : List Connection) : List Element :=
  arrangeElements elements connections

/-! ## Flip-Flop State Machine and arrival dispatch (`handleSignalArrival`) -/

/-- JS object-key update `{...prev, [k]: v}` on the `activeOutputs` map. -/
def setTimeKey (m : List (Int × ℚ)) (k : Int) (v : ℚ) : List (Int × ℚ) :=
  if m.any (fun e => e.1 = k) then m.map (fun e => if e.1 = k then (k, v) else e)
  else m ++ [(k, v)]

/-- JS object-key update `{...prev, [k]: v}` on the `activeFlipFlopInputs`
map. -/
def setFFInputKey (m : List (Int × FFInput)) (k : Int) (v : FFInput) :
    List (Int × FFInput) :=
  if m.any (fun e => e.1 = k) then m.map (fun e => if e.1 = k then (k, v) else e)
  else m ++ [(k, v)]

/-- Lookup `prev[id] || default` with default `{D: false, En: false, lastEnUpdateTime: 0}`. -/
def lookupFFInput (m : List (Int × FFInput)) (k : Int) : FFInput :=
  ((m.find? (fun e => e.1 = k)).map (·.2)).getD ⟨false, false, 0⟩

/-- Condition `portIndex === 1 || (inputPort.wireName && inputPort.wireName.includes("clk"))`,
where `portIndex` is the index of the (first matching) input port. -/
def isClockInputPort (inputs : List Port) (p : Port) : Bool :=
  inputs.indexOf p == 1 || (p.wireName ≠ "" && strIncludes p.wireName "clk")

/-- Condition `portIndex === 0 || (inputPort.wireName && inputPort.wireName.includes("D"))`. -/
def isDInputPort (inputs : List Port) (p : Port) : Bool :=
  inputs.indexOf p == 0 || (p.wireName ≠ "" && strIncludes p.wireName "D")

/-- Condition `portIndex === 2 || (inputPort.wireName && inputPort.wireName.includes("en"))`. -/
def isEnInputPort (inputs : List Port) (p : Port) : Bool :=
  inputs.indexOf p == 2 || (p.wireName ≠ "" && strIncludes p.wireName "en")

/-- Condition `destElement.type === "DFF_NE" || (destElement.type === "DFF" && ff.hasEn)`:
whether a debounce-accepted clock edge latches D into the output. -/
def shouldUpdateOutput (destType : String) (ff : FlipFlopState) : Bool :=
  destType == "DFF_NE" || (destType == "DFF" && ff.hasEn)

/-- Result of one arrival dispatch: the state maps `handleSignalArrival` may
update, plus the ids of flip-flops for which a deferred (100 ms) output-signal
emission was scheduled via `setTimeout`. -/
structure ArrivalResult where
  flipFlopStates : List FlipFlopState
  activeFlipFlopInputs : List (Int × FFInput)
  activeOutputs : List (Int × ℚ)
  scheduledEmissions : List Int
deriving DecidableEq, Repr

/-- Function `handleSignalArrival`: dispatch of a signal that reached the end of its
wire.  `currentTime` is the `performance.now()` reading of this dispatch. -/
def handleSignalArrival (elements : List Element) (ffs : List FlipFlopState)
    (affi : List (Int × FFInput)) (aouts : List (Int × ℚ))
    (signal : Signal) (currentTime : ℚ) : ArrivalResult :=
  match elements.find? (fun el =>
      el.inputs.any (fun input => input.wireName = signal.connectionName)) with
  | none => ⟨ffs, affi, aouts, []⟩
  | some destElement =>
    match destElement.inputs.find? (fun input =>
        input.wireName = signal.connectionName) with
    | none => ⟨ffs, affi, aouts, []⟩
    | some inputPort =>
      let aouts1 := if destElement.type = "module_output"
        then setTimeKey aouts destElement.id currentTime else aouts
      if destElement.type = "DFF" ∨ destElement.type = "DFF_NE" then
        match ffs.findIdx? (fun ff => ff.id = destElement.id) with
        | none => ⟨ffs, affi, aouts1, []⟩
        | some ffIndex =>
          match ffs[ffIndex]? with
          | none => ⟨ffs, affi, aouts1, []⟩
          | some ff =>
            if isDInputPort destElement.inputs inputPort then
              ⟨ffs.set ffIndex { ff with hasD := true }, affi, aouts1, []⟩
            else if isEnInputPort destElement.inputs inputPort then
              if destElement.type = "DFF" then
                ⟨ffs.set ffIndex { ff with hasEn := true },
                 setFFInputKey affi destElement.id
                   { lookupFFInput affi destElement.id with
                     enIn := true, lastEnUpdateTime := currentTime },
                 aouts1, []⟩
              else ⟨ffs, affi, aouts1, []⟩
            else if isClockInputPort destElement.inputs inputPort then
              -- Debounce clock to prevent multiple triggers
              if currentTime - ff.lastClockTime < 50 then ⟨ffs, affi, aouts1, []⟩
              else
                let ff1 := { ff with lastClockTime := currentTime }
                if shouldUpdateOutput destElement.type ff then
                  let ff2 := { ff1 with outputValue := ff.hasD }
                  ⟨ffs.set ffIndex { ff2 with hasD := false }, affi, aouts1,
                   if ff2.outputValue then [destElement.id] else []⟩
                else
                  ⟨ffs.set ffIndex { ff1 with hasD := false }, affi, aouts1, []⟩
            else ⟨ffs, affi, aouts1, []⟩
      else ⟨ffs, affi, aouts1, []⟩

/-- The body of the 100 ms `setTimeout` callback scheduled by a latching clock
edge: find the flip-flop's output connection and append a fresh signal on it.
`signals` is the active-signal list at the time the callback fires; `now` is
`performance.now()` at that moment.  The callback checks neither the
simulation run-state nor whether a signal already occupies the wire. -/
def deferredOutputEmission (elements : List Element) (connections : List Connection)
    (ffId : Int) (signals : List Signal) (now : ℚ) : List Signal :=
  match connections.find? (fun conn =>
      (elements.find? (fun el =>
        el.id = ffId ∧ el.outputs.any (fun output => output.wireName = conn.name))).isSome) with
  | none => signals
  | some outputConn =>
    match elements.find? (fun el => el.id = ffId),
          elements.find? (fun el =>
            el.inputs.any (fun input => input.wireName = outputConn.name)) with
    | some outputElement, some targetElement =>
      let path := calculateOrthogonalPath outputElement targetElement outputConn
      signals ++ [⟨outputConn.name, 0, path, pathTotalLength path, now,
                  nameOrFallback outputElement, nameOrFallback targetElement⟩]
    | _, _ => signals

/-! ## Signal Propagation Scheduler (advancement tick) -/

/-- Derived value `signalSpeed = 1 / clockFrequency`: seconds for a full wire traversal. -/
def signalSpeed (clockFrequency : ℚ) : ℚ :=
  1 / clockFrequency

/-- The position step added per 10 ms advancement tick:
`0.01 / signalSpeed`. -/
def advanceStep (clockFrequency : ℚ) : ℚ :=
  (1/100) / signalSpeed clockFrequency

/-- The active set after one advancement tick (the `signalInterval` body):
each signal's position is incremented by the step, then signals whose new
position reached `1.0` are removed. -/
def advanceSignals (step : ℚ) (signals : List Signal) : List Signal :=
  (signals.map (fun s => { s with position := s.position + step })).filter
    (fun s => s.position < 1)

/-- The signals dispatched to `handleSignalArrival` during one advancement
tick: those whose old position was `< 1.0` and whose new position reaches
`1.0` (the source passes the pre-update signal to the handler). -/
def arrivingSignals (step : ℚ) (signals : List Signal) : List Signal :=
  signals.filter (fun s => s.position < 1 ∧ 1 ≤ s.position + step)

/-- One advancement tick: the new active set and the dispatched arrivals. -/
def advanceTick (step : ℚ) (signals : List Signal) : List Signal × List Signal :=
  (advanceSignals step signals, arrivingSignals step signals)

/-- Runs `n` consecutive advancement ticks; second component accumulates every
dispatched arrival in tick order. -/
def runAdvance (step : ℚ) : Nat → List Signal → List Signal × List Signal
  | 0, signals => (signals, [])
  | n + 1, signals =>
    let t := advanceTick step signals
    let r := runAdvance step n t.1
    (r.1, t.2 ++ r.2)

/-! ## Simulation Driver commands -/

/-- The engine state owned by the simulation driver. -/
structure SimState where
  activeSignals : List Signal
  flipFlopStates : List FlipFlopState
  activeInputs : List Int
  activeOutputs : List (Int × ℚ)
  activeFlipFlopInputs : List (Int × FFInput)
  running : Bool
deriving DecidableEq, Repr

/-- Stopping the simulation: the running-simulation effect clears all
in-flight signals immediately when `runningSimulation` becomes false (and the
four interval timers are torn down). -/
def stopSimulation (st : SimState) : SimState :=
  { st with running := false, activeSignals := [] }

/-- The `resetTriggered` effects: every flip-flop state is forced to
`{hasD: false, hasEn: type === "DFF_NE", outputValue: false, lastClockTime: 0}`,
the active inputs are cleared, and the active outputs are cleared.  No effect
reads the run/stop flag, and none touches `activeSignals`. -/
def applyReset (st : SimState) : SimState :=
  { st with
    flipFlopStates := st.flipFlopStates.map (fun ff =>
      { ff with hasD := false, hasEn := ff.type == "DFF_NE",
                outputValue := false, lastClockTime := 0 }),
    activeInputs := [],
    activeOutputs := [] }

/-- The `module_input` click handler's `setActiveInputs` updater: remove the
id if already active, append it otherwise. -/
def toggleInput (activeInputs : List Int) (elementId : Int) : List Int :=
  if activeInputs.contains elementId then activeInputs.filter (fun i => i ≠ elementId)
  else activeInputs ++ [elementId]

/-! ## Theorems -/

/-- C10: the input-toggle operation is an involution on the active-input set:
one toggle adds the id if absent and removes it if present while leaving all
other ids unchanged, and toggling the same id twice restores the original
set. -/
theorem toggleInput_involutive_on_membership (l : List Int) (a j : Int) :
    (j ∈ toggleInput l a ↔ (if j = a then a ∉ l else j ∈ l)) ∧
    (j ∈ toggleInput (toggleInput l a) a ↔ j ∈ l) := by
  constructor
  · unfold toggleInput
    by_cases hal : a ∈ l
    · simp [hal, List.mem_filter]
      by_cases hja : j = a
      · subst hja; simp [hal]
      · simp [hja]
    · simp [hal, List.mem_append]
      by_cases hja : j = a
      · subst hja; simp [hal]
      · simp [hja]
  · unfold toggleInput
    by_cases hal : a ∈ l
    · simp [hal, List.mem_filter, List.mem_append]
      by_cases hja : j = a
      · subst hja; simp [hal]
      · simp [hja]
    · simp [hal, List.mem_filter, List.mem_append]
      by_cases hja : j = a
      · subst hja; simp [hal]
      · simp [hja]

/-- C6: on a clock arrival accepted by the debounce (≥ 50 ms since the last
accepted edge), the flip-flop's output is set to the current D-pending value
iff `shouldLatch = (type = DFF_NE) ∨ (type = DFF ∧ En-asserted)` (otherwise
the output keeps its old value), and D-pending is cleared regardless — so a D
pulse arriving before an enable-gated-off clock edge is lost.  A deferred
output emission is scheduled exactly when the newly latched output is true. -/
theorem clock_edge_latch (elements : List Element) (ffs : List FlipFlopState)
    (affi : List (Int × FFInput)) (aouts : List (Int × ℚ)) (signal : Signal) (t : ℚ)
    (destElement : Element) (inputPort : Port) (ffIndex : ℕ) (ff : FlipFlopState)
    (hdest : elements.find? (fun el =>
      el.inputs.any (fun input => input.wireName = signal.connectionName)) = some destElement)
    (hffty : destElement.type = "DFF" ∨ destElement.type = "DFF_NE")
    (hport : destElement.inputs.find? (fun input =>
      input.wireName = signal.connectionName) = some inputPort)
    (hnD : isDInputPort destElement.inputs inputPort = false)
    (hnEn : isEnInputPort destElement.inputs inputPort = false)
    (hclk : isClockInputPort destElement.inputs inputPort = true)
    (hidx : ffs.findIdx? (fun f => f.id = destElement.id) = some ffIndex)
    (hff : ffs[ffIndex]? = some ff)
    (hdt : 50 ≤ t - ff.lastClockTime) :
    handleSignalArrival elements ffs affi aouts signal t =
      ⟨ffs.set ffIndex
        { ff with lastClockTime := t,
                  outputValue := if shouldUpdateOutput destElement.type ff
                                 then ff.hasD else ff.outputValue,
                  hasD := false },
       affi, aouts,
       if shouldUpdateOutput destElement.type ff ∧ ff.hasD
       then [destElement.id] else []⟩ := by
  have hmo : ¬ destElement.type = "module_output" := by
    rcases hffty with h | h <;> simp [h]
  unfold handleSignalArrival
  simp only [hdest, hport, hidx, hff]
  simp only [if_neg hmo, if_pos hffty, hnD, hnEn, hclk, Bool.false_eq_true,
    if_false, if_true, if_neg (not_lt.mpr hdt)]
  by_cases hsu : shouldUpdateOutput destElement.type ff = true
  · simp only [hsu, if_true]
    by_cases hd : ff.hasD = true
    · simp [hd, hsu]
    · simp only [Bool.not_eq_true] at hd
      simp [hd, hsu]
  · simp only [Bool.not_eq_true] at hsu
    simp [hsu]

/-- C7: a clock arrival at a flip-flop less than 50 ms after the last accepted
clock edge is ignored entirely: the whole state (flip-flop states, enable
tracker, active outputs) is unchanged and no deferred output emission is
scheduled. -/
theorem clock_edge_debounce_ignored (elements : List Element) (ffs : List FlipFlopState)
    (affi : List (Int × FFInput)) (aouts : List (Int × ℚ)) (signal : Signal) (t : ℚ)
    (destElement : Element) (inputPort : Port) (ffIndex : ℕ) (ff : FlipFlopState)
    (hdest : elements.find? (fun el =>
      el.inputs.any (fun input => input.wireName = signal.connectionName)) = some destElement)
    (hffty : destElement.type = "DFF" ∨ destElement.type = "DFF_NE")
    (hport : destElement.inputs.find? (fun input =>
      input.wireName = signal.connectionName) = some inputPort)
    (hnD : isDInputPort destElement.inputs inputPort = false)
    (hnEn : isEnInputPort destElement.inputs inputPort = false)
    (hclk : isClockInputPort destElement.inputs inputPort = true)
    (hidx : ffs.findIdx? (fun f => f.id = destElement.id) = some ffIndex)
    (hff : ffs[ffIndex]? = some ff)
    (hdt : t - ff.lastClockTime < 50) :
    handleSignalArrival elements ffs affi aouts signal t = ⟨ffs, affi, aouts, []⟩ := by
  have hmo : ¬ destElement.type = "module_output" := by
    rcases hffty with h | h <;> simp [h]
  unfold handleSignalArrival
  simp only [hdest, hport, hidx, hff]
  simp [if_neg hmo, if_pos hffty, hnD, hnEn, hclk, if_pos hdt]

/-- Witness for C6: a concrete DFF_NE with D pending receives a clock arrival
at t = 100 with last accepted edge at 0 (debounce satisfied); it latches true
and schedules a deferred output emission. -/
theorem clock_edge_latch_witness :
    ((50 : ℚ) ≤ 100 - (0 : ℚ)) ∧
    (handleSignalArrival
      [⟨1, "ff1", "DFF_NE", 0, 0, [⟨"dw"⟩, ⟨"cw"⟩], [⟨"qw"⟩]⟩]
      [⟨1, "ff1", true, true, false, 0, "DFF_NE"⟩] [] []
      ⟨"cw", 0, [], 0, 0, "clk", "ff1"⟩ 100).flipFlopStates =
      [⟨1, "ff1", false, true, true, 100, "DFF_NE"⟩] := by
  refine ⟨by norm_num, ?_⟩
  have h := clock_edge_latch
    [⟨1, "ff1", "DFF_NE", 0, 0, [⟨"dw"⟩, ⟨"cw"⟩], [⟨"qw"⟩]⟩]
    [⟨1, "ff1", true, true, false, 0, "DFF_NE"⟩] [] []
    ⟨"cw", 0, [], 0, 0, "clk", "ff1"⟩ 100
    ⟨1, "ff1", "DFF_NE", 0, 0, [⟨"dw"⟩, ⟨"cw"⟩], [⟨"qw"⟩]⟩ ⟨"cw"⟩ 0
    ⟨1, "ff1", true, true, false, 0, "DFF_NE"⟩
    rfl (Or.inr rfl) rfl rfl rfl rfl rfl rfl (by norm_num)
  rw [h]
  simp [shouldUpdateOutput]

/-- Witness for C7: the same flip-flop receives a clock arrival at t = 30,
only 30 ms after the last accepted edge: everything is unchanged. -/
theorem clock_edge_debounce_ignored_witness :
    ((30 : ℚ) - (0 : ℚ) < 50) ∧
    handleSignalArrival
      [⟨1, "ff1", "DFF_NE", 0, 0, [⟨"dw"⟩, ⟨"cw"⟩], [⟨"qw"⟩]⟩]
      [⟨1, "ff1", true, true, false, 0, "DFF_NE"⟩] [] []
      ⟨"cw", 0, [], 0, 0, "clk", "ff1"⟩ 30 =
      ⟨[⟨1, "ff1", true, true, false, 0, "DFF_NE"⟩], [], [], []⟩ := by
  refine ⟨by norm_num, ?_⟩
  exact clock_edge_debounce_ignored
    [⟨1, "ff1", "DFF_NE", 0, 0, [⟨"dw"⟩, ⟨"cw"⟩], [⟨"qw"⟩]⟩]
    [⟨1, "ff1", true, true, false, 0, "DFF_NE"⟩] [] []
    ⟨"cw", 0, [], 0, 0, "clk", "ff1"⟩ 30
    ⟨1, "ff1", "DFF_NE", 0, 0, [⟨"dw"⟩, ⟨"cw"⟩], [⟨"qw"⟩]⟩ ⟨"cw"⟩ 0
    ⟨1, "ff1", true, true, false, 0, "DFF_NE"⟩
    rfl (Or.inr rfl) rfl rfl rfl rfl rfl rfl (by norm_num)

/-- C3 counterexample: the reset command does not clear in-flight signals: a
state holding one active signal still holds it after `applyReset`, so "reset
clears all active signals" is false of the code (no `resetTriggered` effect
touches `activeSignals`). -/
theorem applyReset_keeps_active_signals :
    (applyReset ⟨[⟨"w1", 1/2, [], 0, 0, "a", "b"⟩], [], [], [], [], true⟩).activeSignals
      ≠ [] := by
  simp [applyReset]

/-- C3 (amended): the reset command, issued at any time and independent of
the run/stop flag (it holds for every state, whatever its `running` flag,
which it preserves), clears all active inputs and active outputs and forces
every flip-flop state to {D-pending: false, En-asserted: (type = DFF_NE),
output: false, last-clock-time: 0} — but it leaves the in-flight signal set
untouched. -/
theorem applyReset_spec (st : SimState) (i : ℕ) :
    (applyReset st).activeInputs = [] ∧
    (applyReset st).activeOutputs = [] ∧
    (applyReset st).activeSignals = st.activeSignals ∧
    (applyReset st).running = st.running ∧
    (applyReset st).flipFlopStates.length = st.flipFlopStates.length ∧
    ((applyReset st).flipFlopStates[i]?).map
        (fun ff => (ff.id, ff.name, ff.type, ff.hasD, ff.hasEn, ff.outputValue, ff.lastClockTime)) =
      (st.flipFlopStates[i]?).map
        (fun ff => (ff.id, ff.name, ff.type, false, ff.type == "DFF_NE", false, (0 : ℚ))) := by
  refine ⟨rfl, rfl, rfl, rfl, by simp [applyReset], ?_⟩
  simp only [applyReset, List.getElem?_map]
  cases st.flipFlopStates[i]? <;> simp

/-- C1 at the failing input: a signal already occupies connection "qw" when
the deferred 100 ms output emission for flip-flop 1 fires; the callback
appends a second signal anyway, leaving two signals in flight on "qw".  The
claim that every emission path suppresses a new signal on an occupied wire is
false of this path (only the periodic emission tick checks occupancy). -/
theorem deferred_emission_violates_wire_exclusivity :
    ((deferredOutputEmission
        [⟨1, "ff1", "DFF_NE", 0, 0, [⟨"dw"⟩, ⟨"cw"⟩], [⟨"qw"⟩]⟩,
         ⟨2, "out", "module_output", 200, 0, [⟨"qw"⟩], []⟩]
        [⟨"qw"⟩] 1
        [⟨"qw", 1/2, [], 0, 0, "ff1", "out"⟩] 1000).map
      (fun s => s.connectionName)) = ["qw", "qw"] := rfl

/-- C2 at the failing input: stopping clears the active-signal set, but a
deferred output emission scheduled before the stop and firing after it still
appends a signal: the callback receives no run-state and checks nothing that
distinguishes stopped from running, so the post-stop active set becomes
nonempty again. -/
theorem deferred_emission_after_stop_resurrects_signal :
    (stopSimulation ⟨[⟨"qw", 1/2, [], 0, 0, "ff1", "out"⟩], [], [], [], [], true⟩).activeSignals
      = [] ∧
    (deferredOutputEmission
        [⟨1, "ff1", "DFF_NE", 0, 0, [⟨"dw"⟩, ⟨"cw"⟩], [⟨"qw"⟩]⟩,
         ⟨2, "out", "module_output", 200, 0, [⟨"qw"⟩], []⟩]
        [⟨"qw"⟩] 1
        (stopSimulation ⟨[⟨"qw", 1/2, [], 0, 0, "ff1", "out"⟩], [], [], [], [], true⟩).activeSignals
        1000).map (fun s => s.connectionName) = ["qw"] :=
  ⟨rfl, rfl⟩

/-- Function `updateElementPos` preserves the list length. -/
theorem updateElementPos_length (tid : Int) (lx ly : ℚ) (l : List Element) :
    (updateElementPos tid lx ly l).length = l.length := by
  induction l with
  | nil => rfl
  | cons el rest ih => by_cases h : el.id = tid <;> simp [updateElementPos, h, ih]

/-- Function `updateElementPos` changes nothing but `x`/`y`. -/
theorem updateElementPos_fields (tid : Int) (lx ly : ℚ) (l : List Element) (i : ℕ) :
    ((updateElementPos tid lx ly l)[i]?).map
        (fun e => (e.id, e.name, e.type, e.inputs, e.outputs)) =
      (l[i]?).map (fun e => (e.id, e.name, e.type, e.inputs, e.outputs)) := by
  induction l generalizing i with
  | nil => rfl
  | cons el rest ih =>
    by_cases h : el.id = tid
    · cases i <;> simp [updateElementPos, h]
    · cases i <;> simp [updateElementPos, h, ih]

/-- Function `assignLayer` preserves the list length. -/
theorem assignLayer_length (lx : ℚ) (ids : List Int) (j : ℕ) (heap : List Element) :
    (assignLayer lx j ids heap).length = heap.length := by
  induction ids generalizing j heap with
  | nil => rfl
  | cons d ds ih => simp [assignLayer, ih, updateElementPos_length]

/-- Function `assignLayer` changes nothing but `x`/`y`. -/
theorem assignLayer_fields (lx : ℚ) (ids : List Int) (j : ℕ) (heap : List Element) (i : ℕ) :
    ((assignLayer lx j ids heap)[i]?).map
        (fun e => (e.id, e.name, e.type, e.inputs, e.outputs)) =
      (heap[i]?).map (fun e => (e.id, e.name, e.type, e.inputs, e.outputs)) := by
  induction ids generalizing j heap with
  | nil => rfl
  | cons d ds ih =>
    show ((assignLayer lx (j+1) ds _)[i]?).map _ = _
    rw [ih, updateElementPos_fields]

/-- Function `assignAll` preserves the list length. -/
theorem assignAll_length (layers : List (List Int)) (li : ℕ) (heap : List Element) :
    (assignAll li layers heap).length = heap.length := by
  induction layers generalizing li heap with
  | nil => rfl
  | cons layer rest ih => simp [assignAll, ih, assignLayer_length]

/-- Function `assignAll` changes nothing but `x`/`y`. -/
theorem assignAll_fields (layers : List (List Int)) (li : ℕ) (heap : List Element) (i : ℕ) :
    ((assignAll li layers heap)[i]?).map
        (fun e => (e.id, e.name, e.type, e.inputs, e.outputs)) =
      (heap[i]?).map (fun e => (e.id, e.name, e.type, e.inputs, e.outputs)) := by
  induction layers generalizing li heap with
  | nil => rfl
  | cons layer rest ih =>
    show ((assignAll (li+1) rest _)[i]?).map _ = _
    rw [ih, assignLayer_fields]

/-- C4 counterexample: `arrangeElements` is not pure from the caller's
perspective.  The clone `[...elements]` is shallow, so the caller's element
objects are the very records of the returned collection
(`arrangeElementsCallerView`); at this concrete input the caller's elements,
which started at (7,9) and (3,4), carry (100,100) and (300,100) after the
call before even looking at the returned array. -/
theorem arrange_mutates_caller_elements :
    ([(⟨1, "a", "module_input", 7, 9, [], [⟨"w"⟩]⟩ : Element),
      ⟨2, "b", "module_output", 3, 4, [⟨"w"⟩], []⟩].map (fun e => (e.id, e.x, e.y))
        = [(1, 7, 9), (2, 3, 4)]) ∧
    (arrangeElementsCallerView
        [⟨1, "a", "module_input", 7, 9, [], [⟨"w"⟩]⟩,
         ⟨2, "b", "module_output", 3, 4, [⟨"w"⟩], []⟩]
        [⟨"w"⟩]).map (fun e => (e.id, e.x, e.y)) = [(1, 100, 100), (2, 300, 100)] := by
  constructor
  · norm_num
  · norm_num [arrangeElementsCallerView, arrangeElements, buildLayers, buildLayersLoop,
      nextLayerCalc, processDests, processDest, depGraph, sourceLayerIds, assignAll,
      assignLayer, updateElementPos]

/-- C4 (amended): `arrangeElements` assigns positions into the caller's
element objects in place (through the references shared by the shallow array
clone), so the returned collection and the caller's post-call view are the
same records; apart from `x` and `y`, every field of every element is
unchanged, and no element is added or dropped. -/
theorem arrange_updates_in_place_positions_only (els : List Element)
    (conns : List Connection) (i : ℕ) :
    arrangeElementsCallerView els conns = arrangeElements els conns ∧
    (arrangeElementsCallerView els conns).length = els.length ∧
    ((arrangeElementsCallerView els conns)[i]?).map
        (fun e => (e.id, e.name, e.type, e.inputs, e.outputs)) =
      (els[i]?).map (fun e => (e.id, e.name, e.type, e.inputs, e.outputs)) := by
  refine ⟨rfl, ?_, ?_⟩
  · unfold arrangeElementsCallerView arrangeElements
    by_cases h : els.isEmpty <;> simp [h, assignAll_length]
  · unfold arrangeElementsCallerView arrangeElements
    by_cases h : els.isEmpty <;> simp [h, assignAll_fields]

/-- The port-name argument passed to `getPortPosition` by
`calculateOrthogonalPath` always equals the connection name: a found port's
`wireName` equals it by the find predicate, and the `|| connection.name`
fallback covers the not-found and empty-name cases. -/
theorem portNameArg_eq (ports : List Port) (c : String) :
    (match ports.find? (fun p => p.wireName = c) with
     | some p => if p.wireName = "" then c else p.wireName
     | none => c) = c := by
  cases hf : ports.find? (fun p => p.wireName = c) with
  | none => rfl
  | some p =>
    have hp := List.find?_some hf
    simp only [decide_eq_true_eq] at hp
    by_cases h : p.wireName = "" <;> simp [h, hp]

/-- C9: every routed path is exactly 4 waypoints — the source port position,
two bend points sharing the x-coordinate of the horizontal midpoint of the
two port positions, and the destination port position.  Flip-flop ports sit
at D = 25%-height on the left edge, clock = bottom-center, enable =
75%-height on the left edge, Q = vertical-center on the right edge (port
identity by name substring / index-suffix with D-before-clock-before-enable
precedence); every other element type uses left-center input / right-center
output. -/
theorem orthogonal_path_and_port_positions :
    (∀ (src dst : Element) (conn : Connection),
      calculateOrthogonalPath src dst conn =
        [getPortPosition src "output" conn.name,
         ⟨((getPortPosition src "output" conn.name).x +
           (getPortPosition dst "input" conn.name).x) / 2,
          (getPortPosition src "output" conn.name).y⟩,
         ⟨((getPortPosition src "output" conn.name).x +
           (getPortPosition dst "input" conn.name).x) / 2,
          (getPortPosition dst "input" conn.name).y⟩,
         getPortPosition dst "input" conn.name]) ∧
    (∀ (el : Element) (pn : String), el.type = "DFF" ∨ el.type = "DFF_NE" →
      ((strIncludes pn "D" || strEndsWith pn "_0") = true →
        getPortPosition el "input" pn = ⟨el.x, el.y + 50 * (1/4)⟩) ∧
      ((strIncludes pn "D" || strEndsWith pn "_0") = false →
        (strIncludes pn "clk" || strEndsWith pn "_1") = true →
        getPortPosition el "input" pn = ⟨el.x + 50 / 2, el.y + 50⟩) ∧
      ((strIncludes pn "D" || strEndsWith pn "_0") = false →
        (strIncludes pn "clk" || strEndsWith pn "_1") = false →
        (strIncludes pn "en" || strEndsWith pn "_2") = true →
        getPortPosition el "input" pn = ⟨el.x, el.y + 50 * (3/4)⟩) ∧
      getPortPosition el "output" pn = ⟨el.x + 50, el.y + 50 / 2⟩) ∧
    (∀ (el : Element) (pn : String), ¬(el.type = "DFF" ∨ el.type = "DFF_NE") →
      getPortPosition el "input" pn = ⟨el.x, el.y + 50 / 2⟩ ∧
      getPortPosition el "output" pn = ⟨el.x + 50, el.y + 50 / 2⟩) := by
  refine ⟨?_, ?_, ?_⟩
  · intro src dst conn
    unfold calculateOrthogonalPath
    dsimp only
    rw [portNameArg_eq, portNameArg_eq]
    simp only [List.cons.injEq, Point.mk.injEq]
    refine ⟨trivial, ⟨by ring, trivial⟩, ⟨by ring, trivial⟩, trivial⟩
  · intro el pn hty
    refine ⟨?_, ?_, ?_, ?_⟩ <;> intros <;> simp_all [getPortPosition]
  · intro el pn hty
    constructor <;> simp_all [getPortPosition]

/-- Witness for C9 at concrete inputs: a module_input → module_output wire
(path and default port positions) and concrete flip-flop ports of each kind. -/
theorem orthogonal_path_and_port_positions_witness :
    (calculateOrthogonalPath ⟨1, "a", "module_input", 0, 0, [], [⟨"w"⟩]⟩
        ⟨2, "b", "module_output", 100, 50, [⟨"w"⟩], []⟩ ⟨"w"⟩ =
      [getPortPosition ⟨1, "a", "module_input", 0, 0, [], [⟨"w"⟩]⟩ "output" "w",
       ⟨((getPortPosition ⟨1, "a", "module_input", 0, 0, [], [⟨"w"⟩]⟩ "output" "w").x +
         (getPortPosition ⟨2, "b", "module_output", 100, 50, [⟨"w"⟩], []⟩ "input" "w").x) / 2,
        (getPortPosition ⟨1, "a", "module_input", 0, 0, [], [⟨"w"⟩]⟩ "output" "w").y⟩,
       ⟨((getPortPosition ⟨1, "a", "module_input", 0, 0, [], [⟨"w"⟩]⟩ "output" "w").x +
         (getPortPosition ⟨2, "b", "module_output", 100, 50, [⟨"w"⟩], []⟩ "input" "w").x) / 2,
        (getPortPosition ⟨2, "b", "module_output", 100, 50, [⟨"w"⟩], []⟩ "input" "w").y⟩,
       getPortPosition ⟨2, "b", "module_output", 100, 50, [⟨"w"⟩], []⟩ "input" "w"]) ∧
    getPortPosition ⟨3, "f", "DFF", 10, 20, [⟨"D1"⟩, ⟨"clk1"⟩, ⟨"en1"⟩], [⟨"q"⟩]⟩
      "input" "D1" = ⟨10, 20 + 50 * (1/4)⟩ ∧
    getPortPosition ⟨3, "f", "DFF", 10, 20, [⟨"D1"⟩, ⟨"clk1"⟩, ⟨"en1"⟩], [⟨"q"⟩]⟩
      "input" "clk1" = ⟨10 + 50 / 2, 20 + 50⟩ ∧
    getPortPosition ⟨3, "f", "DFF", 10, 20, [⟨"D1"⟩, ⟨"clk1"⟩, ⟨"en1"⟩], [⟨"q"⟩]⟩
      "input" "en1" = ⟨10, 20 + 50 * (3/4)⟩ ∧
    getPortPosition ⟨3, "f", "DFF", 10, 20, [⟨"D1"⟩, ⟨"clk1"⟩, ⟨"en1"⟩], [⟨"q"⟩]⟩
      "output" "q" = ⟨10 + 50, 20 + 50 / 2⟩ ∧
    getPortPosition ⟨1, "a", "module_input", 0, 0, [], [⟨"w"⟩]⟩ "input" "w" =
      ⟨0, 0 + 50 / 2⟩ := by
  have h := orthogonal_path_and_port_positions
  refine ⟨h.1 _ _ _, ?_, ?_, ?_, ?_, ?_⟩
  · exact (h.2.1 _ "D1" (Or.inl rfl)).1 (by decide)
  · exact (h.2.1 _ "clk1" (Or.inl rfl)).2.1 (by decide) (by decide)
  · exact (h.2.1 _ "en1" (Or.inl rfl)).2.2.1 (by decide) (by decide) (by decide)
  · exact (h.2.1 _ "q" (Or.inl rfl)).2.2.2
  · exact (h.2.2 _ "w" (by decide)).1

/-- Advancing commutes with restricting to one connection name: the signals
of connection `c` in the advanced set are exactly the signals of `c` whose
incremented position stayed below 1, advanced. -/
theorem advanceSignals_filter_conn (step : ℚ) (c : String) (ss : List Signal) :
    (advanceSignals step ss).filter (fun t => t.connectionName == c)
      = ((ss.filter (fun t => t.connectionName == c)).filter
          (fun t => t.position + step < 1)).map
            (fun s => { s with position := s.position + step }) := by
  induction ss with
  | nil => rfl
  | cons a as ih =>
    by_cases h1 : (a.connectionName == c) <;> by_cases h2 : a.position + step < 1 <;>
      simp [advanceSignals, h1, h2] at ih ⊢ <;> simp [ih]

/-- Arrival dispatch commutes with restricting to one connection name. -/
theorem arrivingSignals_filter_conn (step : ℚ) (c : String) (ss : List Signal) :
    (arrivingSignals step ss).filter (fun t => t.connectionName == c)
      = (ss.filter (fun t => t.connectionName == c)).filter
          (fun s => s.position < 1 ∧ 1 ≤ s.position + step) := by
  induction ss with
  | nil => rfl
  | cons a as ih =>
    by_cases h1 : (a.connectionName == c) <;>
      by_cases h2 : a.position < 1 ∧ 1 ≤ a.position + step <;>
      simp [arrivingSignals, h1, h2] at ih ⊢ <;> simp [ih]

/-- A run of advancement ticks never invents a signal on a connection that
carries none: both the surviving set and the accumulated arrivals stay free
of it. -/
theorem runAdvance_conn_empty (step : ℚ) (c : String) (n : ℕ) (l : List Signal)
    (h : l.filter (fun t => t.connectionName == c) = []) :
    (runAdvance step n l).1.filter (fun t => t.connectionName == c) = [] ∧
    (runAdvance step n l).2.filter (fun t => t.connectionName == c) = [] := by
  induction n generalizing l with
  | zero => exact ⟨h, rfl⟩
  | succ m ih =>
    have h1 : (advanceSignals step l).filter (fun t => t.connectionName == c) = [] := by
      rw [advanceSignals_filter_conn, h]; rfl
    have h2 : (arrivingSignals step l).filter (fun t => t.connectionName == c) = [] := by
      rw [arrivingSignals_filter_conn, h]; rfl
    have hrest := ih (advanceSignals step l) h1
    refine ⟨hrest.1, ?_⟩
    show ((arrivingSignals step l) ++ (runAdvance step m (advanceSignals step l)).2).filter _ = []
    rw [List.filter_append, h2, hrest.2]; rfl

/-- Core lemma for C5: if exactly one in-flight signal `s` rides connection
`c`, every position is `< 1`, and `k` is characterised by
`s.position + k·step < 1 ≤ s.position + (k+1)·step`, then after `n` ticks the
signal is still in flight (advanced by `n·step`) iff `n ≤ k`, and the
accumulated arrival dispatches contain the signal exactly once as soon as
`n > k` (dispatched with its pre-update position of tick `k+1`), never
before and never twice. -/
theorem runAdvance_unique_conn (step : ℚ) (hstep : 0 < step) (n : ℕ)
    (ss : List Signal) (s : Signal) (c : String)
    (hpos : ∀ t ∈ ss, t.position < 1)
    (huniq : ss.filter (fun t => t.connectionName == c) = [s])
    (k : ℕ)
    (hk1 : s.position + k * step < 1)
    (hk2 : 1 ≤ s.position + (k + 1) * step) :
    (runAdvance step n ss).1.filter (fun t => t.connectionName == c)
      = (if n ≤ k then [{ s with position := s.position + n * step }] else []) ∧
    (runAdvance step n ss).2.filter (fun t => t.connectionName == c)
      = (if k < n then [{ s with position := s.position + k * step }] else []) := by
  induction n generalizing ss s k with
  | zero =>
    constructor
    · show ss.filter _ = _
      rw [huniq]
      norm_num
    · show List.filter _ [] = _
      norm_num
  | succ m ih =>
    have hs_mem : s ∈ ss := by
      have h := List.mem_filter.mp (huniq ▸ List.mem_singleton_self s)
      exact h.1
    have hsp : s.position < 1 := hpos s hs_mem
    have hfst : (runAdvance step (m+1) ss).1 = (runAdvance step m (advanceSignals step ss)).1 := rfl
    have hsnd : (runAdvance step (m+1) ss).2
        = arrivingSignals step ss ++ (runAdvance step m (advanceSignals step ss)).2 := rfl
    cases k with
    | zero =>
      have harr : (1 : ℚ) ≤ s.position + step := by
        have : ((0 : ℕ) + 1 : ℚ) * step = step := by norm_num
        calc (1 : ℚ) ≤ s.position + ((0 : ℕ) + 1 : ℚ) * step := by exact_mod_cast hk2
          _ = s.position + step := by rw [this]
      have hadv : (advanceSignals step ss).filter (fun t => t.connectionName == c) = [] := by
        rw [advanceSignals_filter_conn, huniq]
        simp [not_lt.mpr harr]
      have hdone := runAdvance_conn_empty step c m _ hadv
      constructor
      · rw [hfst, hdone.1]
        norm_num
      · rw [hsnd, List.filter_append, hdone.2, arrivingSignals_filter_conn, huniq]
        simp [hsp, harr]
    | succ j =>
      have hcast : ((j : ℚ) + 1 + 1) = ((j + 1 : ℕ) + 1 : ℚ) := by push_cast; ring
      have hj1 : (1 : ℚ) ≤ ((j : ℚ) + 1) := by
        have : (0 : ℚ) ≤ (j : ℚ) := Nat.cast_nonneg j
        linarith
      have hk1' : s.position + ((j : ℚ) + 1) * step < 1 := by
        have : ((j + 1 : ℕ) : ℚ) = (j : ℚ) + 1 := by push_cast; ring
        calc s.position + ((j : ℚ) + 1) * step
            = s.position + ((j + 1 : ℕ) : ℚ) * step := by rw [this]
          _ < 1 := hk1
      have hlt : s.position + step < 1 := by
        have hms : step ≤ ((j : ℚ) + 1) * step := le_mul_of_one_le_left (le_of_lt hstep) hj1
        linarith
      have hadv : (advanceSignals step ss).filter (fun t => t.connectionName == c)
          = [{ s with position := s.position + step }] := by
        rw [advanceSignals_filter_conn, huniq]
        simp [hlt]
      have harr : (arrivingSignals step ss).filter (fun t => t.connectionName == c) = [] := by
        rw [arrivingSignals_filter_conn, huniq]
        simp [not_le.mpr hlt]
      have hpos' : ∀ t ∈ advanceSignals step ss, t.position < 1 := by
        intro t ht
        have := (List.mem_filter.mp ht).2
        simpa using this
      have ihk1 : ({ s with position := s.position + step } : Signal).position + j * step < 1 := by
        show s.position + step + (j : ℚ) * step < 1
        calc s.position + step + (j : ℚ) * step = s.position + ((j : ℚ) + 1) * step := by ring
          _ < 1 := hk1'
      have ihk2 : (1 : ℚ) ≤ ({ s with position := s.position + step } : Signal).position + (j + 1) * step := by
        show (1 : ℚ) ≤ s.position + step + ((j : ℕ) + 1 : ℚ) * step
        have h2 : (1 : ℚ) ≤ s.position + ((j + 1 + 1 : ℕ) : ℚ) * step := by exact_mod_cast hk2
        have : s.position + step + ((j : ℕ) + 1 : ℚ) * step
            = s.position + ((j + 1 + 1 : ℕ) : ℚ) * step := by push_cast; ring
        linarith [this ▸ h2]
      obtain ⟨ih1, ih2⟩ := ih (advanceSignals step ss) { s with position := s.position + step }
        hpos' hadv j ihk1 ihk2
      constructor
      · rw [hfst, ih1]
        by_cases hmj : m ≤ j
        · rw [if_pos hmj, if_pos (Nat.succ_le_succ hmj)]
          have harith : s.position + step + (m : ℚ) * step
              = s.position + ((m + 1 : ℕ) : ℚ) * step := by push_cast; ring
          simp [Signal.mk.injEq, harith]
        · rw [if_neg hmj, if_neg (fun hc => hmj (Nat.le_of_succ_le_succ hc))]
      · rw [hsnd, List.filter_append, harr, ih2]
        by_cases hjm : j < m
        · rw [if_pos hjm, if_pos (Nat.succ_lt_succ hjm)]
          have harith : s.position + step + (j : ℚ) * step
              = s.position + ((j + 1 : ℕ) : ℚ) * step := by push_cast; ring
          simp [Signal.mk.injEq, harith]
        · rw [if_neg hjm, if_neg (fun hc => hjm (Nat.lt_of_succ_lt_succ hc))]
          rfl

/-- C5: each advancement tick increases every signal's progress by the fixed
step `0.01 × clockFrequency` (`0.01 / signalSpeed` with
`signalSpeed = 1/clockFrequency`); for an in-flight signal (unique on its
connection, progress `< 1`), with `k` characterised by
`position + k·step < 1 ≤ position + (k+1)·step`, arrival dispatch fires
exactly once — in tick `k+1`, the first tick in which its progress reaches
`1.0` — carrying the signal's pre-update state, and the signal leaves the
active set in that same tick: it is present (advanced by `n·step`) after `n`
ticks iff `n ≤ k`, and the accumulated dispatch list contains it exactly once
for every `n > k` and never for `n ≤ k`. -/
theorem signal_advancement_arrival_once (cf : ℚ) (ss : List Signal) (s : Signal)
    (c : String) (k n : ℕ) (hcf : 0 < cf)
    (hpos : ∀ t ∈ ss, t.position < 1)
    (huniq : ss.filter (fun t => t.connectionName == c) = [s])
    (hk1 : s.position + k * advanceStep cf < 1)
    (hk2 : 1 ≤ s.position + (k + 1) * advanceStep cf) :
    advanceStep cf = (1/100) * cf ∧
    (runAdvance (advanceStep cf) n ss).1.filter (fun t => t.connectionName == c)
      = (if n ≤ k then [{ s with position := s.position + n * advanceStep cf }] else []) ∧
    (runAdvance (advanceStep cf) n ss).2.filter (fun t => t.connectionName == c)
      = (if k < n then [{ s with position := s.position + k * advanceStep cf }] else []) := by
  have hstep : 0 < advanceStep cf := by
    unfold advanceStep signalSpeed
    positivity
  have hval : advanceStep cf = (1/100) * cf := by
    unfold advanceStep signalSpeed
    rw [one_div cf, div_inv_eq_mul]
  exact ⟨hval,
    runAdvance_unique_conn (advanceStep cf) hstep n ss s c hpos huniq k hk1 hk2⟩

/-- Witness for C5: one signal at progress 0 on wire "w", clock frequency
20 Hz (step 1/5): it arrives exactly once across 7 ticks, during tick 5
(`k = 4`), with pre-update progress 4/5. -/
theorem signal_advancement_arrival_once_witness :
    ((0 : ℚ) + (4 : ℕ) * advanceStep 20 < 1) ∧
    (runAdvance (advanceStep 20) 7 [⟨"w", 0, [], 0, 0, "a", "b"⟩]).2.filter
        (fun t => t.connectionName == "w")
      = [⟨"w", 4/5, [], 0, 0, "a", "b"⟩] := by
  have h := signal_advancement_arrival_once 20 [⟨"w", 0, [], 0, 0, "a", "b"⟩]
    ⟨"w", 0, [], 0, 0, "a", "b"⟩ "w" 4 7 (by norm_num)
    (by intro t ht; rw [List.mem_singleton] at ht; subst ht; norm_num)
    rfl
    (by norm_num [advanceStep, signalSpeed])
    (by norm_num [advanceStep, signalSpeed])
  refine ⟨by norm_num [advanceStep, signalSpeed], ?_⟩
  rw [h.2.2]
  norm_num [advanceStep, signalSpeed]

/-- Function `processDest` either leaves the visited set and accumulator unchanged, or
appends one fresh element id to both. -/
theorem processDest_spec (els : List Element) (vs acc : List Int) (d : Int) :
    processDest els vs acc d = (vs, acc) ∨
    (processDest els vs acc d = (vs ++ [d], acc ++ [d]) ∧
      d ∈ els.map (·.id) ∧ d ∉ vs) := by
  unfold processDest
  split
  · exact Or.inl rfl
  next hv =>
    split
    next hf => exact Or.inl rfl
    next el hf =>
      dsimp only
      split
      next hall =>
        right
        refine ⟨rfl, ?_, ?_⟩
        · have hmem := List.mem_of_find?_eq_some hf
          have hid : el.id = d := by simpa using List.find?_some hf
          exact List.mem_map.mpr ⟨el, hmem, hid⟩
        · intro hd
          exact hv (by simpa using hd)
      next hall => exact Or.inl rfl

/-- Function `processDests` appends one common fresh, duplicate-free block of element
ids to the visited set and the accumulator. -/
theorem processDests_spec (els : List Element) (ds : List Int) (vs acc : List Int) :
    ∃ t : List Int,
      processDests els vs acc ds = (vs ++ t, acc ++ t) ∧
      (∀ x ∈ t, x ∈ els.map (·.id) ∧ x ∉ vs) ∧
      t.Nodup := by
  induction ds generalizing vs acc with
  | nil => exact ⟨[], by simp [processDests], by simp, List.nodup_nil⟩
  | cons d ds ih =>
    rcases processDest_spec els vs acc d with h | ⟨h, hd1, hd2⟩
    · obtain ⟨t, ht1, ht2, ht3⟩ := ih vs acc
      exact ⟨t, by simp only [processDests, h]; exact ht1, ht2, ht3⟩
    · obtain ⟨t, ht1, ht2, ht3⟩ := ih (vs ++ [d]) (acc ++ [d])
      refine ⟨d :: t, ?_, ?_, ?_⟩
      · simp only [processDests, h, ht1]
        simp
      · intro x hx
        rcases List.mem_cons.mp hx with rfl | hx
        · exact ⟨hd1, hd2⟩
        · have := ht2 x hx
          refine ⟨this.1, fun hxv => this.2 ?_⟩
          exact List.mem_append.mpr (Or.inl hxv)
      · refine List.nodup_cons.mpr ⟨?_, ht3⟩
        intro hdt
        exact (ht2 d hdt).2 (List.mem_append.mpr (Or.inr (List.mem_singleton_self d)))

/-- One while-loop iteration appends one common fresh, duplicate-free block
of element ids to the visited set; the block is the next layer. -/
theorem nextLayerCalc_spec (els : List Element) (g : Int → List Int)
    (cur : List Int) (vs acc : List Int) :
    ∃ t : List Int,
      nextLayerCalc els g vs acc cur = (vs ++ t, acc ++ t) ∧
      (∀ x ∈ t, x ∈ els.map (·.id) ∧ x ∉ vs) ∧
      t.Nodup := by
  induction cur generalizing vs acc with
  | nil => exact ⟨[], by simp [nextLayerCalc], by simp, List.nodup_nil⟩
  | cons s ss ih =>
    obtain ⟨t1, ht1, ht2, ht3⟩ := processDests_spec els (g s) vs acc
    obtain ⟨t2, hu1, hu2, hu3⟩ := ih (vs ++ t1) (acc ++ t1)
    refine ⟨t1 ++ t2, ?_, ?_, ?_⟩
    · simp only [nextLayerCalc, ht1, hu1]
      simp
    · intro x hx
      rcases List.mem_append.mp hx with hx | hx
      · exact ht2 x hx
      · have := hu2 x hx
        exact ⟨this.1, fun hxv => this.2 (List.mem_append.mpr (Or.inl hxv))⟩
    · refine List.Nodup.append ht3 hu3 ?_
      intro x hx1 hx2
      exact (hu2 x hx2).2 (List.mem_append.mpr (Or.inr hx1))

/-- The final visited set of the loop is the initial one followed by the
concatenation of all pushed layers. -/
theorem buildLayersLoop_snd (els : List Element) (g : Int → List Int)
    (fuel : ℕ) (vs cur : List Int) :
    (buildLayersLoop els g fuel vs cur).2
      = vs ++ (buildLayersLoop els g fuel vs cur).1.flatten := by
  induction fuel generalizing vs cur with
  | zero =>
    show vs = vs ++ ([] : List (List Int)).flatten
    simp
  | succ f ih =>
    by_cases hc : cur.isEmpty
    · simp [buildLayersLoop, hc]
    · obtain ⟨t, ht1, _, _⟩ := nextLayerCalc_spec els g cur vs []
      simp only [buildLayersLoop, hc, Bool.false_eq_true, if_false, ht1, List.nil_append]
      by_cases hte : t.isEmpty
      · have ht : t = [] := List.isEmpty_iff.mp hte
        subst ht
        simp [ih]
      · simp only [hte, Bool.false_eq_true, if_false, List.flatten_cons]
        rw [ih (vs ++ t) t]
        simp

/-- Every id in the loop's final visited set was initially visited or is an
element id. -/
theorem buildLayersLoop_snd_subset (els : List Element) (g : Int → List Int)
    (fuel : ℕ) (vs cur : List Int) (x : Int)
    (hx : x ∈ (buildLayersLoop els g fuel vs cur).2) :
    x ∈ vs ∨ x ∈ els.map (·.id) := by
  induction fuel generalizing vs cur with
  | zero => exact Or.inl (by simpa [buildLayersLoop] using hx)
  | succ f ih =>
    by_cases hc : cur.isEmpty
    · exact Or.inl (by simpa [buildLayersLoop, hc] using hx)
    · obtain ⟨t, ht1, ht2, _⟩ := nextLayerCalc_spec els g cur vs []
      simp only [buildLayersLoop, hc, Bool.false_eq_true, if_false, ht1, List.nil_append] at hx
      rcases ih (vs ++ t) t hx with h | h
      · rcases List.mem_append.mp h with h | h
        · exact Or.inl h
        · exact Or.inr (ht2 x h).1
      · exact Or.inr h

/-- The loop preserves duplicate-freeness of the visited set. -/
theorem buildLayersLoop_snd_nodup (els : List Element) (g : Int → List Int)
    (fuel : ℕ) (vs cur : List Int) (hvs : vs.Nodup) :
    (buildLayersLoop els g fuel vs cur).2.Nodup := by
  induction fuel generalizing vs cur with
  | zero => simpa [buildLayersLoop]
  | succ f ih =>
    by_cases hc : cur.isEmpty
    · simpa [buildLayersLoop, hc]
    · obtain ⟨t, ht1, ht2, ht3⟩ := nextLayerCalc_spec els g cur vs []
      simp only [buildLayersLoop, hc, Bool.false_eq_true, if_false, ht1, List.nil_append]
      apply ih
      refine List.Nodup.append hvs ht3 ?_
      intro x hx1 hx2
      exact (ht2 x hx2).2 hx1

/-- Bridge between `List.contains` and membership for integer id lists. -/
theorem contains_eq_false_iff (l : List Int) (a : Int) :
    (l.contains a = false) ↔ a ∉ l := by
  rw [← Bool.not_eq_true, List.elem_iff]

/-- The number of element ids outside the visited set. -/
def unvisitedCount (els : List Element) (vs : List Int) : ℕ :=
  ((els.map (·.id)).filter (fun i => !vs.contains i)).length

/-- Growing the visited set by a nonempty block of fresh element ids strictly
decreases the unvisited count. -/
theorem unvisitedCount_lt (els : List Element) (vs t : List Int) (hne : t ≠ [])
    (ht : ∀ x ∈ t, x ∈ els.map (·.id) ∧ x ∉ vs) :
    unvisitedCount els (vs ++ t) < unvisitedCount els vs := by
  have hsub : List.Sublist ((els.map (·.id)).filter (fun i => !(vs ++ t).contains i))
      ((els.map (·.id)).filter (fun i => !vs.contains i)) := by
    apply List.monotone_filter_right
    intro a ha
    simp only [Bool.not_eq_true', contains_eq_false_iff,
      List.mem_append] at ha ⊢
    exact fun h => ha (Or.inl h)
  have hle := hsub.length_le
  rcases Nat.lt_or_ge ((els.map (·.id)).filter (fun i => !(vs ++ t).contains i)).length
      ((els.map (·.id)).filter (fun i => !vs.contains i)).length with h | h
  · exact h
  · exfalso
    have heq := hsub.eq_of_length (le_antisymm hle h)
    obtain ⟨d, hd⟩ := List.exists_mem_of_ne_nil t hne
    have hd1 := (ht d hd).1
    have hd2 := (ht d hd).2
    have hmem : d ∈ (els.map (·.id)).filter (fun i => !vs.contains i) := by
      simp only [List.mem_filter, Bool.not_eq_true', contains_eq_false_iff]
      exact ⟨hd1, hd2⟩
    rw [← heq] at hmem
    have := (List.mem_filter.mp hmem).2
    simp only [Bool.not_eq_true', contains_eq_false_iff,
      List.mem_append] at this
    exact this (Or.inr hd)

/-- Fuel stability: once the fuel covers the unvisited count, adding more
fuel does not change the loop's result — i.e. the while loop of
`arrangeElements` stabilises (terminates) within that many iterations. -/
theorem buildLayersLoop_fuel_stable (els : List Element) (g : Int → List Int)
    (fuel m : ℕ) (vs cur : List Int) (h : unvisitedCount els vs ≤ fuel) :
    buildLayersLoop els g (fuel + m) vs cur = buildLayersLoop els g fuel vs cur := by
  induction fuel generalizing vs cur m with
  | zero =>
    cases m with
    | zero => rfl
    | succ m' =>
      by_cases hc : cur.isEmpty
      · simp [buildLayersLoop, hc]
      · obtain ⟨t, ht1, ht2, _⟩ := nextLayerCalc_spec els g cur vs []
        have ht : t = [] := by
          by_contra hne
          have := unvisitedCount_lt els vs t hne ht2
          omega
        subst ht
        cases m' <;> simp [buildLayersLoop, hc, ht1]
  | succ f ih =>
    by_cases hc : cur.isEmpty
    · have h1 : f + 1 + m = (f + m) + 1 := by omega
      rw [h1]
      simp [buildLayersLoop, hc]
    · obtain ⟨t, ht1, ht2, _⟩ := nextLayerCalc_spec els g cur vs []
      by_cases hte : t = []
      · subst hte
        have h1 : f + 1 + m = (f + m) + 1 := by omega
        rw [h1]
        simp only [buildLayersLoop, hc, Bool.false_eq_true, if_false, ht1, List.nil_append]
        cases f <;> cases m <;> simp [buildLayersLoop]
      · have hlt := unvisitedCount_lt els vs t hte ht2
        have h' : unvisitedCount els (vs ++ t) ≤ f := by omega
        have h1 : f + 1 + m = (f + m) + 1 := by omega
        rw [h1]
        simp only [buildLayersLoop, hc, Bool.false_eq_true, if_false, ht1,
          List.nil_append]
        rw [ih m (vs ++ t) t h']

/-- The seed layer has no duplicate ids when element ids are distinct. -/
theorem sourceLayerIds_nodup (els : List Element) (hnd : (els.map (·.id)).Nodup) :
    (sourceLayerIds els).Nodup := by
  unfold sourceLayerIds
  exact ((List.filter_sublist els).map (·.id)).nodup hnd

/-- The layers of `buildLayers` are globally duplicate-free: no id appears in
two layers or twice in one layer. -/
theorem buildLayers_flatten_nodup (els : List Element) (conns : List Connection)
    (hnd : (els.map (·.id)).Nodup) :
    (buildLayers els conns).flatten.Nodup := by
  unfold buildLayers
  dsimp only
  have hsnd := buildLayersLoop_snd els (depGraph els conns) (els.length + 1)
    (sourceLayerIds els) (sourceLayerIds els)
  have hvn := buildLayersLoop_snd_nodup els (depGraph els conns) (els.length + 1)
    (sourceLayerIds els) (sourceLayerIds els) (sourceLayerIds_nodup els hnd)
  have hsnd' : ((sourceLayerIds els) :: (buildLayersLoop els (depGraph els conns)
      (els.length + 1) (sourceLayerIds els) (sourceLayerIds els)).1).flatten
      = (buildLayersLoop els (depGraph els conns) (els.length + 1)
          (sourceLayerIds els) (sourceLayerIds els)).2 := by
    rw [List.flatten_cons]
    exact hsnd.symm
  by_cases hrem : ((els.map (·.id)).filter
      (fun i => !(buildLayersLoop els (depGraph els conns) (els.length + 1)
        (sourceLayerIds els) (sourceLayerIds els)).2.contains i)).isEmpty
  · rw [if_pos hrem, hsnd']
    exact hvn
  · rw [if_neg hrem, List.flatten_append, hsnd']
    simp only [List.flatten_cons, List.flatten_nil, List.append_nil]
    refine List.Nodup.append hvn (hnd.filter _) ?_
    intro x hx1 hx2
    have := (List.mem_filter.mp hx2).2
    simp only [Bool.not_eq_true', contains_eq_false_iff] at this
    exact this hx1

/-- Every element id lands in some layer of `buildLayers` (visited ids are in
the seed layer or a pushed layer; the rest land in the catch-all layer). -/
theorem buildLayers_covers (els : List Element) (conns : List Connection) (x : Int)
    (hx : x ∈ els.map (·.id)) :
    x ∈ (buildLayers els conns).flatten := by
  unfold buildLayers
  dsimp only
  have hsnd := buildLayersLoop_snd els (depGraph els conns) (els.length + 1)
    (sourceLayerIds els) (sourceLayerIds els)
  have hsnd' : ((sourceLayerIds els) :: (buildLayersLoop els (depGraph els conns)
      (els.length + 1) (sourceLayerIds els) (sourceLayerIds els)).1).flatten
      = (buildLayersLoop els (depGraph els conns) (els.length + 1)
          (sourceLayerIds els) (sourceLayerIds els)).2 := by
    rw [List.flatten_cons]
    exact hsnd.symm
  by_cases hc : (buildLayersLoop els (depGraph els conns) (els.length + 1)
      (sourceLayerIds els) (sourceLayerIds els)).2.contains x
  · have hxv : x ∈ (buildLayersLoop els (depGraph els conns) (els.length + 1)
        (sourceLayerIds els) (sourceLayerIds els)).2 := List.elem_iff.mp hc
    split
    · rw [hsnd']
      exact hxv
    · rw [List.flatten_append, hsnd']
      exact List.mem_append.mpr (Or.inl hxv)
  · have hxr : x ∈ (els.map (·.id)).filter
        (fun i => !(buildLayersLoop els (depGraph els conns) (els.length + 1)
          (sourceLayerIds els) (sourceLayerIds els)).2.contains i) := by
      refine List.mem_filter.mpr ⟨hx, ?_⟩
      rw [Bool.not_eq_true] at hc
      rw [hc]
      rfl
    have hne : ¬ ((els.map (·.id)).filter
        (fun i => !(buildLayersLoop els (depGraph els conns) (els.length + 1)
          (sourceLayerIds els) (sourceLayerIds els)).2.contains i)).isEmpty = true := by
      intro he
      rw [List.isEmpty_iff.mp he] at hxr
      cases hxr
    rw [if_neg hne, List.flatten_append]
    refine List.mem_append.mpr (Or.inr ?_)
    simp only [List.flatten_cons, List.flatten_nil, List.append_nil]
    exact hxr

/-- Positioning one id leaves the lookup of any other id unchanged. -/
theorem updateElementPos_find?_ne (tid : Int) (lx ly : ℚ) (heap : List Element)
    (d : Int) (hne : d ≠ tid) :
    (updateElementPos tid lx ly heap).find? (fun el => el.id = d)
      = heap.find? (fun el => el.id = d) := by
  induction heap with
  | nil => rfl
  | cons el rest ih =>
    have hne2 : ¬ (tid = d) := fun hh => hne hh.symm
    by_cases h : el.id = tid
    · have hnd : ¬ (el.id = d) := by rw [h]; exact hne2
      simp [updateElementPos, h, List.find?_cons, hnd, hne2]
    · by_cases hd : el.id = d
      · simp [updateElementPos, h, List.find?_cons, hd, hne, hne2]
      · simp [updateElementPos, h, List.find?_cons, hd, ih]

/-- Positioning an id rewrites exactly the `x`/`y` of the first element
carrying it, as seen through lookup. -/
theorem updateElementPos_find?_eq (tid : Int) (lx ly : ℚ) (heap : List Element) :
    (updateElementPos tid lx ly heap).find? (fun el => el.id = tid)
      = (heap.find? (fun el => el.id = tid)).map
          (fun el => { el with x := lx, y := ly }) := by
  induction heap with
  | nil => rfl
  | cons el rest ih =>
    by_cases h : el.id = tid
    · simp [updateElementPos, h, List.find?_cons]
    · simp [updateElementPos, h, List.find?_cons, ih]

/-- Placing a layer that does not mention an id leaves its lookup unchanged. -/
theorem assignLayer_find?_not_mem (lx : ℚ) (L : List Int) (j0 : ℕ)
    (heap : List Element) (d : Int) (hd : d ∉ L) :
    (assignLayer lx j0 L heap).find? (fun el => el.id = d)
      = heap.find? (fun el => el.id = d) := by
  induction L generalizing j0 heap with
  | nil => rfl
  | cons a as ih =>
    have hda : d ≠ a := fun hh => hd (hh ▸ List.mem_cons_self a as)
    show (assignLayer lx (j0 + 1) as _).find? _ = _
    rw [ih (j0 + 1) _ (fun hh => hd (List.mem_cons_of_mem a hh)),
      updateElementPos_find?_ne a lx _ heap d hda]

/-- Placing a duplicate-free layer sets the element at slot `j` (0-based,
relative to starting slot `j0`) to the layer's x and `100 + (j0+j)·100`. -/
theorem assignLayer_find?_at (lx : ℚ) (L : List Int) (j0 j : ℕ)
    (heap : List Element) (d : Int) (hnd : L.Nodup) (hj : L[j]? = some d) :
    (assignLayer lx j0 L heap).find? (fun el => el.id = d)
      = (heap.find? (fun el => el.id = d)).map
          (fun el => { el with x := lx, y := 100 + ((j0 + j : ℕ) : ℚ) * 100 }) := by
  induction L generalizing j0 heap j with
  | nil => simp at hj
  | cons a as ih =>
    cases j with
    | zero =>
      simp only [List.getElem?_cons_zero, Option.some.injEq] at hj
      subst hj
      show (assignLayer lx (j0 + 1) as _).find? _ = _
      rw [assignLayer_find?_not_mem lx as (j0 + 1) _ a (List.nodup_cons.mp hnd).1,
        updateElementPos_find?_eq]
      norm_num
    | succ j' =>
      simp only [List.getElem?_cons_succ] at hj
      have hda : d ≠ a := by
        intro hh
        subst hh
        exact (List.nodup_cons.mp hnd).1 (List.getElem?_mem hj)
      show (assignLayer lx (j0 + 1) as _).find? _ = _
      rw [ih (j0 + 1) j' _ (List.nodup_cons.mp hnd).2 hj,
        updateElementPos_find?_ne a lx _ heap d hda,
        show j0 + 1 + j' = j0 + (j' + 1) from by omega]

/-- Placing layers that do not mention an id leaves its lookup unchanged. -/
theorem assignAll_find?_not_mem (layers : List (List Int)) (li0 : ℕ)
    (heap : List Element) (d : Int) (hd : ∀ L ∈ layers, d ∉ L) :
    (assignAll li0 layers heap).find? (fun el => el.id = d)
      = heap.find? (fun el => el.id = d) := by
  induction layers generalizing li0 heap with
  | nil => rfl
  | cons L0 rest ih =>
    show (assignAll (li0 + 1) rest _).find? _ = _
    rw [ih (li0 + 1) _ (fun L hL => hd L (List.mem_cons_of_mem L0 hL)),
      assignLayer_find?_not_mem _ L0 0 heap d (hd L0 (List.mem_cons_self L0 rest))]

/-- Step 3 of `arrangeElements`: if the globally duplicate-free layer list
has id `d` in layer `i` at slot `j`, the element with id `d` ends at
`x = 100 + (li0+i)·200`, `y = 100 + j·100`, and nothing else about it
changes. -/
theorem assignAll_find?_at (layers : List (List Int)) (li0 : ℕ)
    (heap : List Element) (d : Int) (i : ℕ) (L : List Int) (j : ℕ)
    (hnd : layers.flatten.Nodup) (hi : layers[i]? = some L) (hj : L[j]? = some d) :
    (assignAll li0 layers heap).find? (fun el => el.id = d)
      = (heap.find? (fun el => el.id = d)).map
          (fun el => { el with x := 100 + ((li0 + i : ℕ) : ℚ) * 200,
                               y := 100 + (j : ℚ) * 100 }) := by
  induction layers generalizing li0 heap i with
  | nil => simp at hi
  | cons L0 rest ih =>
    have hnd' := List.nodup_append.mp (by simpa using hnd)
    cases i with
    | zero =>
      simp only [List.getElem?_cons_zero, Option.some.injEq] at hi
      subst hi
      have hdrest : ∀ L' ∈ rest, d ∉ L' := by
        intro L' hL' hdL'
        exact hnd'.2.2 (List.getElem?_mem hj) (List.mem_flatten.mpr ⟨L', hL', hdL'⟩)
      show ((assignAll (li0 + 1) rest _).find? _) = _
      rw [assignAll_find?_not_mem rest (li0 + 1) _ d hdrest,
        assignLayer_find?_at _ L0 0 j heap d hnd'.1 hj]
      norm_num
    | succ i' =>
      simp only [List.getElem?_cons_succ] at hi
      have hdL0 : d ∉ L0 := by
        intro hdL0
        refine hnd'.2.2 hdL0 (List.mem_flatten.mpr ⟨L, List.getElem?_mem hi, ?_⟩)
        exact List.getElem?_mem hj
      show ((assignAll (li0 + 1) rest _).find? _) = _
      rw [ih (li0 + 1) _ i' hnd'.2.1 hi,
        assignLayer_find?_not_mem _ L0 0 heap d hdL0,
        show li0 + 1 + i' = li0 + (i' + 1) from by omega]

/-- With distinct ids, looking an element's id up finds that element. -/
theorem find?_id_of_nodup (els : List Element) (hnd : (els.map (·.id)).Nodup)
    (e : Element) (he : e ∈ els) :
    els.find? (fun el => el.id = e.id) = some e := by
  induction els with
  | nil => cases he
  | cons a rest ih =>
    rcases List.mem_cons.mp he with rfl | he'
    · simp [List.find?_cons]
    · have ha : ¬ (a.id = e.id) := by
        intro hh
        have h1 : a.id ∈ rest.map (·.id) := hh ▸ List.mem_map.mpr ⟨e, he', rfl⟩
        exact (List.nodup_cons.mp (by simpa using hnd)).1 h1
      simp only [List.find?_cons, ha, decide_eq_true_eq, if_false]
      exact ih (List.nodup_cons.mp (by simpa using hnd)).2 he'

/-- C8: for every netlist with distinct element ids — including cyclic and
disconnected graphs — the layout terminates and drops no element: the
breadth-first while loop stabilises within `els.length + 1` iterations (its
result is unchanged by any extra fuel), and every element is assigned a
position of the form `x = 100 + layerIndex·200`, `y = 100 + indexInLayer·100`
(elements unreached when the expansion stabilises land in the final
catch-all layer). -/
theorem arrange_total_layered_positions (els : List Element)
    (conns : List Connection) (hnd : (els.map (·.id)).Nodup) :
    (∀ m : ℕ, buildLayersLoop els (depGraph els conns) (els.length + 1 + m)
        (sourceLayerIds els) (sourceLayerIds els)
      = buildLayersLoop els (depGraph els conns) (els.length + 1)
        (sourceLayerIds els) (sourceLayerIds els)) ∧
    ∀ e ∈ els, ∃ i j : ℕ,
      (arrangeElements els conns).find? (fun el => el.id = e.id)
        = some { e with x := 100 + (i : ℚ) * 200, y := 100 + (j : ℚ) * 100 } := by
  constructor
  · intro m
    apply buildLayersLoop_fuel_stable
    calc unvisitedCount els (sourceLayerIds els)
        ≤ (els.map (·.id)).length := List.length_filter_le _ _
      _ = els.length := List.length_map els _
      _ ≤ els.length + 1 := Nat.le_succ _
  · intro e he
    have hne : ¬ els.isEmpty = true := by
      cases els with
      | nil => cases he
      | cons a rest => simp
    have hcov : e.id ∈ (buildLayers els conns).flatten :=
      buildLayers_covers els conns e.id (List.mem_map.mpr ⟨e, he, rfl⟩)
    obtain ⟨L, hL, hdL⟩ := List.mem_flatten.mp hcov
    obtain ⟨i, hi⟩ := List.getElem?_of_mem hL
    obtain ⟨j, hj⟩ := List.getElem?_of_mem hdL
    refine ⟨i, j, ?_⟩
    unfold arrangeElements
    rw [if_neg hne,
      assignAll_find?_at (buildLayers els conns) 0 els e.id i L j
        (buildLayers_flatten_nodup els conns hnd) hi hj,
      find?_id_of_nodup els hnd e he]
    simp

/-- Witness for C8 on a concrete cyclic netlist: `module_input 1 → and-gate 2
↔ flip-flop 3` (the gate and the flip-flop feed each other, so neither is
reachable by the layered expansion and both land in the catch-all layer);
distinct-id hypothesis and placement of the in-cycle flip-flop. -/
theorem arrange_total_layered_positions_witness :
    (([(⟨1, "in", "module_input", 0, 0, [], [⟨"w1"⟩]⟩ : Element),
       ⟨2, "g", "and", 0, 0, [⟨"w1"⟩, ⟨"w3"⟩], [⟨"w2"⟩]⟩,
       ⟨3, "ff", "DFF", 0, 0, [⟨"w2"⟩], [⟨"w3"⟩]⟩].map (·.id)).Nodup) ∧
    (∃ i j : ℕ,
      (arrangeElements
        [⟨1, "in", "module_input", 0, 0, [], [⟨"w1"⟩]⟩,
         ⟨2, "g", "and", 0, 0, [⟨"w1"⟩, ⟨"w3"⟩], [⟨"w2"⟩]⟩,
         ⟨3, "ff", "DFF", 0, 0, [⟨"w2"⟩], [⟨"w3"⟩]⟩]
        [⟨"w1"⟩, ⟨"w2"⟩, ⟨"w3"⟩]).find?
          (fun el => el.id = (⟨3, "ff", "DFF", 0, 0, [⟨"w2"⟩], [⟨"w3"⟩]⟩ : Element).id)
        = some { (⟨3, "ff", "DFF", 0, 0, [⟨"w2"⟩], [⟨"w3"⟩]⟩ : Element) with
                   x := 100 + (i : ℚ) * 200, y := 100 + (j : ℚ) * 100 }) := by
  constructor
  · decide
  · exact (arrange_total_layered_positions
      [⟨1, "in", "module_input", 0, 0, [], [⟨"w1"⟩]⟩,
       ⟨2, "g", "and", 0, 0, [⟨"w1"⟩, ⟨"w3"⟩], [⟨"w2"⟩]⟩,
       ⟨3, "ff", "DFF", 0, 0, [⟨"w2"⟩], [⟨"w3"⟩]⟩]
      [⟨"w1"⟩, ⟨"w2"⟩, ⟨"w3"⟩] (by decide)).2
      ⟨3, "ff", "DFF", 0, 0, [⟨"w2"⟩], [⟨"w3"⟩]⟩ (by simp)
